import Mathlib

/-!
Shallow embedding of the ent-rs statistical engine (src/src/lib.rs).

Floating point model: the code computes with IEEE-754 doubles.  We idealize
f64 as exact real arithmetic extended with an explicit NaN value.  In this
program a division by zero always has a zero numerator (empty-buffer cases),
so IEEE infinities are unreachable and the model folds every division by zero
to NaN; square root of a negative argument is NaN, and NaN propagates through
every arithmetic operation, while every ordered comparison involving NaN is
false, exactly as in IEEE-754.
-/

set_option maxRecDepth 8192

namespace EntRs

/-- Idealized f64: exact real arithmetic plus an explicit NaN. -/
inductive F where
  | nan : F
  | val : ℝ → F

/-- IEEE addition on the idealized doubles: NaN propagates. -/
def fadd : F → F → F
  | F.val a, F.val b => F.val (a + b)
  | _, _ => F.nan

/-- IEEE subtraction on the idealized doubles: NaN propagates. -/
def fsub : F → F → F
  | F.val a, F.val b => F.val (a - b)
  | _, _ => F.nan

/-- IEEE multiplication on the idealized doubles: NaN propagates. -/
def fmul : F → F → F
  | F.val a, F.val b => F.val (a * b)
  | _, _ => F.nan

/-- IEEE negation on the idealized doubles. -/
def fneg : F → F
  | F.val a => F.val (-a)
  | F.nan => F.nan

open Classical in
/-- IEEE division.  In this program every division by a zero denominator has
a zero numerator (0/0 = NaN); nonzero/0, which would be an infinity, never
occurs, so the model maps every division by zero to NaN. -/
noncomputable def fdiv : F → F → F
  | F.val a, F.val b => if b = 0 then F.nan else F.val (a / b)
  | _, _ => F.nan

open Classical in
/-- IEEE square root: negative argument gives NaN. -/
noncomputable def fsqrt : F → F
  | F.val a => if a < 0 then F.nan else F.val (Real.sqrt a)
  | F.nan => F.nan

open Classical in
/-- IEEE base-2 logarithm.  In the source it is only applied to strictly
positive arguments (the entropy loop filters on p greater than 0), so the
model maps every nonpositive argument to NaN. -/
noncomputable def flog2 : F → F
  | F.val a => if a ≤ 0 then F.nan else F.val (Real.logb 2 a)
  | F.nan => F.nan

/-- IEEE ordered comparison: any comparison involving NaN is false. -/
def fle : F → F → Prop
  | F.val a, F.val b => a ≤ b
  | _, _ => False

open Classical in
/-- The filter predicate p greater than 0 from the entropy loop, as a Bool
on idealized doubles; false on NaN as in IEEE. -/
noncomputable def fIsPos : F → Bool
  | F.val a => decide (0 < a)
  | F.nan => false

/-- Iterator sum of a list of idealized doubles, folding from 0.0. -/
def fsumF (l : List F) : F := l.foldl fadd (F.val 0)

/-- A byte of the input buffer (u8). -/
abbrev Byte := Fin 256

/-- One histogram increment loop: for each symbol s of the stream execute
counts[s] += 1, starting from the given table. -/
def tallyFold (l : List ℕ) (init : ℕ → ℕ) : ℕ → ℕ :=
  l.foldl (fun c s => Function.update c s (c s + 1)) init

/-- Byte histogram of the buffer (the freq / count array of the source in
byte mode): for b in data, counts[b] += 1. -/
def byteCounts (data : List Byte) : ℕ → ℕ :=
  tallyFold (data.map Fin.val) (fun _ => 0)

/-- The eight bits of a byte in source order: (b >> i) & 1 for i in 0..8. -/
def bitsOf (b : Byte) : List ℕ :=
  (List.range 8).map (fun i => b.val >>> i &&& 1)

/-- Bit histogram of the buffer (the count array of the source in bit mode):
for b in data, for i in 0..8, counts[(b >> i) & 1] += 1; the double loop is
the single increment loop over the flattened bit stream. -/
def bitCounts (data : List Byte) : ℕ → ℕ :=
  tallyFold (data.flatMap bitsOf) (fun _ => 0)

lemma fadd_val (a b : ℝ) : fadd (F.val a) (F.val b) = F.val (a + b) := rfl

lemma fadd_nan_right (x : F) : fadd x F.nan = F.nan := by cases x <;> rfl

lemma fadd_nan_left (x : F) : fadd F.nan x = F.nan := by cases x <;> rfl

lemma fsub_val (a b : ℝ) : fsub (F.val a) (F.val b) = F.val (a - b) := rfl

lemma fmul_val (a b : ℝ) : fmul (F.val a) (F.val b) = F.val (a * b) := rfl

lemma fneg_val (a : ℝ) : fneg (F.val a) = F.val (-a) := rfl

lemma fdiv_val_of_ne (a b : ℝ) (hb : b ≠ 0) :
    fdiv (F.val a) (F.val b) = F.val (a / b) := by
  simp [fdiv, hb]

lemma fdiv_val_zero (a : ℝ) : fdiv (F.val a) (F.val 0) = F.nan := by
  simp [fdiv]

lemma fsqrt_val_of_nonneg (a : ℝ) (ha : 0 ≤ a) :
    fsqrt (F.val a) = F.val (Real.sqrt a) := by
  simp [fsqrt, not_lt.mpr ha]

lemma fsqrt_val_of_neg (a : ℝ) (ha : a < 0) : fsqrt (F.val a) = F.nan := by
  simp [fsqrt, ha]

lemma fsqrt_nan : fsqrt F.nan = F.nan := rfl

lemma flog2_val_of_pos (a : ℝ) (ha : 0 < a) :
    flog2 (F.val a) = F.val (Real.logb 2 a) := by
  simp [flog2, not_le.mpr ha]

lemma fIsPos_val (a : ℝ) : fIsPos (F.val a) = decide (0 < a) := rfl

lemma fIsPos_nan : fIsPos F.nan = false := rfl

lemma fle_val (a b : ℝ) : fle (F.val a) (F.val b) ↔ a ≤ b := Iff.rfl

lemma fle_nan_right (x : F) : ¬ fle x F.nan := by cases x <;> simp [fle]

lemma val_injective {a b : ℝ} (h : F.val a = F.val b) : a = b := by
  injection h

/-- Folding fadd over a list of real values is real summation. -/
lemma foldl_fadd_map_val (l : List ℝ) (a : ℝ) :
    (l.map F.val).foldl fadd (F.val a) = F.val (a + l.sum) := by
  induction l generalizing a with
  | nil => simp
  | cons x t ih => simp [fadd_val, ih, add_assoc]

/-- The iterator sum of purely real values is the real sum. -/
lemma fsumF_map_val (l : List ℝ) : fsumF (l.map F.val) = F.val l.sum := by
  simp [fsumF, foldl_fadd_map_val]

lemma foldl_fadd_nan (l : List F) : l.foldl fadd F.nan = F.nan := by
  induction l with
  | nil => rfl
  | cons x t ih => simpa [fadd_nan_left] using ih

/-- A NaN summand poisons the whole iterator sum, as in IEEE. -/
lemma foldl_fadd_of_mem_nan (l : List F) (acc : F) (h : F.nan ∈ l) :
    l.foldl fadd acc = F.nan := by
  induction l generalizing acc with
  | nil => cases h
  | cons x t ih =>
    rcases List.mem_cons.mp h with hx | ht
    · subst hx
      simpa [fadd_nan_right] using foldl_fadd_nan t
    · exact ih _ ht

/-- The histogram fold counts occurrences. -/
lemma tallyFold_apply (l : List ℕ) (init : ℕ → ℕ) (s : ℕ) :
    tallyFold l init s = init s + l.count s := by
  induction l generalizing init with
  | nil => simp [tallyFold]
  | cons x t ih =>
    simp only [tallyFold, List.foldl_cons] at *
    rw [ih]
    rcases eq_or_ne s x with h | h
    · subst h
      simp [Function.update_apply, List.count_cons]
      omega
    · simp [Function.update_apply, h, List.count_cons, h.symm]

lemma byteCounts_apply (data : List Byte) (s : ℕ) :
    byteCounts data s = (data.map Fin.val).count s := by
  simp [byteCounts, tallyFold_apply]

lemma bitCounts_apply (data : List Byte) (s : ℕ) :
    bitCounts data s = (data.flatMap bitsOf).count s := by
  simp [bitCounts, tallyFold_apply]

/-- The complementary error function used by the statrs dependency,
erfc x = (2 / sqrt pi) times the integral of exp (-t^2) over (x, infinity). -/
noncomputable def erfc (x : ℝ) : ℝ :=
  (2 / Real.sqrt Real.pi) * ∫ t in Set.Ioi x, Real.exp (-(t ^ 2))

/-- NaN-propagating erfc on idealized doubles. -/
noncomputable def ferfc : F → F
  | F.val a => F.val (erfc a)
  | F.nan => F.nan

/-- Shannon entropy of the buffer, mirroring calculate_entropy of the source:
build the frequency table, normalize by the symbol total, then sum
minus p times log2 p over the entries with p greater than 0. -/
noncomputable def calculate_entropy (data : List Byte) (bit_mode : Bool) : F :=
  if bit_mode then
    let total : ℝ := 8.0 * (data.length : ℝ)
    let freq : List F :=
      (List.range 2).map (fun i => fdiv (F.val (bitCounts data i)) (F.val total))
    fsumF ((freq.filter fIsPos).map (fun p => fmul (fneg p) (flog2 p)))
  else
    let total : ℝ := (data.length : ℝ)
    let freq : List F :=
      (List.range 256).map (fun i => fdiv (F.val (byteCounts data i)) (F.val total))
    fsumF ((freq.filter fIsPos).map (fun p => fmul (fneg p) (flog2 p)))

/-- Chi-square statistic and p-value, mirroring calculate_chisquare of the
source: expected = total / alphabet_size, chisq = sum of diff^2 / expected
over the count array, z = sqrt (chisq - degrees_of_freedom), and
p = 1 - 0.5 * erfc (-z / sqrt 2). -/
noncomputable def calculate_chisquare (data : List Byte) (bit_mode : Bool) : F × F :=
  if bit_mode then
    let total : ℕ := data.length * 8
    let expected : F := fdiv (F.val (total : ℝ)) (F.val 2.0)
    let chisq : F :=
      fsumF (((List.range 2).map (fun i => F.val (bitCounts data i))).map
        (fun obs =>
          let diff := fsub obs expected
          fdiv (fmul diff diff) expected))
    let z := fsqrt (fsub chisq (F.val 1.0))
    (chisq, fsub (F.val 1.0) (fmul (F.val 0.5)
      (ferfc (fdiv (fneg z) (F.val (Real.sqrt 2))))))
  else
    let total : ℕ := data.length
    let expected : F := fdiv (F.val (total : ℝ)) (F.val 256.0)
    let chisq : F :=
      fsumF (((List.range 256).map (fun i => F.val (byteCounts data i))).map
        (fun obs =>
          let diff := fsub obs expected
          fdiv (fmul diff diff) expected))
    let z := fsqrt (fsub chisq (F.val 255.0))
    (chisq, fsub (F.val 1.0) (fmul (F.val 0.5)
      (ferfc (fdiv (fneg z) (F.val (Real.sqrt 2))))))

/-- Arithmetic mean of the raw byte values, mirroring calculate_mean. -/
noncomputable def calculate_mean (data : List Byte) : F :=
  fdiv (F.val ((data.map (fun b => (b.val : ℝ))).sum)) (F.val (data.length : ℝ))

/-- chunks_exact (6): consecutive non-overlapping 6-byte chunks, trailing
bytes discarded; each chunk is split as the two coordinate triples. -/
def chunks6 : List Byte → List ((Byte × Byte × Byte) × (Byte × Byte × Byte))
  | b0 :: b1 :: b2 :: b3 :: b4 :: b5 :: rest =>
      ((b0, b1, b2), (b3, b4, b5)) :: chunks6 rest
  | _ => []

/-- A 24-bit coordinate from three bytes exactly as the source builds it:
(c0 << 16) | (c1 << 8) | c2, on u64 values modeled as Nat (no overflow,
see the Pi safety theorem). -/
def coord24 : Byte × Byte × Byte → ℕ
  | (c0, c1, c2) => c0.val <<< 16 ||| c1.val <<< 8 ||| c2.val

/-- The hit test of estimate_pi: x * x + y * y < 1 << 48, on u64 values
modeled as Nat. -/
def piHit (c : (Byte × Byte × Byte) × (Byte × Byte × Byte)) : Bool :=
  decide (coord24 c.1 * coord24 c.1 + coord24 c.2 * coord24 c.2 < 1 <<< 48)

/-- Monte-Carlo Pi estimate, mirroring estimate_pi of the source. -/
noncomputable def estimate_pi (data : List Byte) : F :=
  let cs := chunks6 data
  let hits : ℕ := (cs.filter piHit).length
  let total : ℕ := cs.length
  if total > 0 then
    fdiv (fmul (F.val 4.0) (F.val (hits : ℝ))) (F.val (total : ℝ))
  else
    F.val 0.0

/-- The lag-1 pairs (data[i-1], data[i]) for i in 1..len, as real values. -/
def scPairs (data : List Byte) : List (ℝ × ℝ) :=
  (data.zip data.tail).map (fun p => ((p.1.val : ℝ), (p.2.val : ℝ)))

/-- The squared denominator of the serial correlation:
(n * sum_x2 - sum_x^2) * (n * sum_y2 - sum_y^2). -/
noncomputable def scDenomSq (data : List Byte) : ℝ :=
  let ps := scPairs data
  let n : ℝ := ((data.length - 1 : ℕ) : ℝ)
  let sum_x := (ps.map (fun p => p.1)).sum
  let sum_y := (ps.map (fun p => p.2)).sum
  let sum_x2 := (ps.map (fun p => p.1 * p.1)).sum
  let sum_y2 := (ps.map (fun p => p.2 * p.2)).sum
  (n * sum_x2 - sum_x ^ 2) * (n * sum_y2 - sum_y ^ 2)

/-- The numerator of the serial correlation: n * sum_xy - sum_x * sum_y. -/
noncomputable def scNum (data : List Byte) : ℝ :=
  let ps := scPairs data
  let n : ℝ := ((data.length - 1 : ℕ) : ℝ)
  let sum_x := (ps.map (fun p => p.1)).sum
  let sum_y := (ps.map (fun p => p.2)).sum
  let sum_xy := (ps.map (fun p => p.1 * p.2)).sum
  n * sum_xy - sum_x * sum_y

open Classical in
/-- Lag-1 serial correlation, mirroring serial_correlation of the source:
early return of the sentinel for fewer than 2 bytes, accumulate the five
sums over the lag-1 pairs, then num / denom unless denom == 0.0, in which
case the sentinel -99999.0 is returned. -/
noncomputable def serial_correlation (data : List Byte) : F :=
  if data.length < 2 then F.val (-99999.0)
  else
    let num := scNum data
    let denom := fsqrt (F.val (scDenomSq data))
    if denom = F.val 0.0 then F.val (-99999.0)
    else fdiv (F.val num) denom

/-- Byte frequency table, mirroring byte_occurrences of the source: for i in
0..=255, the triple (i, counts[i], counts[i] / total); the u8 symbol is
modeled as its numeric value. -/
noncomputable def byte_occurrences (data : List Byte) : List (ℕ × ℕ × F) :=
  (List.range 256).map (fun i =>
    (i, byteCounts data i,
      fdiv (F.val (byteCounts data i)) (F.val (data.length : ℝ))))

/-- Bit frequency table, mirroring bit_occurrences of the source: the pair
of (count, fraction) entries for bit value 0 and bit value 1. -/
noncomputable def bit_occurrences (data : List Byte) : (ℕ × F) × (ℕ × F) :=
  ((bitCounts data 0,
      fdiv (F.val (bitCounts data 0)) (F.val ((data.length * 8 : ℕ) : ℝ))),
   (bitCounts data 1,
      fdiv (F.val (bitCounts data 1)) (F.val ((data.length * 8 : ℕ) : ℝ))))

/-- Result of statistical analysis on binary data (the EntStats struct). -/
structure EntStats where
  entropy : F
  compression_percent : F
  chisquare : F
  p_value : F
  mean : F
  pi_estimate : F
  serial_correlation : F
  byte_frequencies : Option (List (ℕ × ℕ × F))
  bit_frequencies : Option ((ℕ × F) × (ℕ × F))

/-- EntStats::from_data, the aggregator. -/
noncomputable def EntStats.from_data (data : List Byte) (bit_mode : Bool) : EntStats :=
  let entropy := calculate_entropy data bit_mode
  let compression_percent :=
    if bit_mode then
      fmul (F.val 100.0) (fsub (F.val 1.0) entropy)
    else
      fmul (F.val 100.0) (fsub (F.val 1.0) (fdiv entropy (F.val 8.0)))
  let cp := calculate_chisquare data bit_mode
  let mean := calculate_mean data
  let pi_estimate := estimate_pi data
  let sc := EntRs.serial_correlation data
  let freqs :
      Option (List (ℕ × ℕ × F)) × Option ((ℕ × F) × (ℕ × F)) :=
    if bit_mode then (none, some (bit_occurrences data))
    else (some (byte_occurrences data), none)
  { entropy := entropy
    compression_percent := compression_percent
    chisquare := cp.1
    p_value := cp.2
    mean := mean
    pi_estimate := pi_estimate
    serial_correlation := sc
    byte_frequencies := freqs.1
    bit_frequencies := freqs.2 }

/-! General list-sum helper lemmas. -/

lemma sum_map_add {α : Type} (l : List α) (f g : α → ℝ) :
    (l.map (fun x => f x + g x)).sum = (l.map f).sum + (l.map g).sum := by
  induction l with
  | nil => simp
  | cons a t ih => simp [ih]; ring

lemma sum_map_div {α : Type} (l : List α) (f : α → ℝ) (c : ℝ) :
    (l.map (fun x => f x / c)).sum = (l.map f).sum / c := by
  induction l with
  | nil => simp
  | cons a t ih => simp [ih]; ring

lemma sum_map_nat_add {α : Type} (l : List α) (f g : α → ℕ) :
    (l.map (fun x => f x + g x)).sum = (l.map f).sum + (l.map g).sum := by
  induction l with
  | nil => simp
  | cons a t ih => simp [ih]; ring

/-- Dropping the filtered-out elements does not change a sum whose terms
vanish outside the filter. -/
lemma sum_filter_of_vanish {α : Type} (l : List α) (p : α → Bool) (f : α → ℝ)
    (h : ∀ x ∈ l, ¬ p x = true → f x = 0) :
    ((l.filter p).map f).sum = (l.map f).sum := by
  induction l with
  | nil => simp
  | cons a t ih =>
    have ht : ∀ x ∈ t, ¬ p x = true → f x = 0 := fun x hx => h x (List.mem_cons_of_mem a hx)
    by_cases hp : p a = true
    · simp [List.filter_cons, hp, ih ht]
    · have ha := h a (List.mem_cons_self a t) hp
      simp [List.filter_cons, hp, ih ht, ha]

/-- Summing the indicator of one value over the index range. -/
lemma sum_range_indicator (a n : ℕ) (h : a < n) :
    ((List.range n).map (fun i => if i = a then 1 else 0)).sum = 1 := by
  induction n with
  | zero => omega
  | succ m ih =>
    rw [List.range_succ, List.map_append, List.sum_append]
    rcases Nat.lt_or_ge a m with ha | ha
    · have hne : m ≠ a := by omega
      simp [hne, ih ha]
    · have ha' : a = m := by omega
      subst ha'
      have hz : ((List.range a).map (fun i => if i = a then (1 : ℕ) else 0)).sum = 0 := by
        apply List.sum_eq_zero
        intro x hx
        rcases List.mem_map.mp hx with ⟨i, hi, hval⟩
        have hlt : i < a := List.mem_range.mp hi
        have hne : i ≠ a := by omega
        simpa [hne] using hval.symm
      simp [hz]

/-- The histogram totals to the stream length when every symbol is in range. -/
lemma sum_range_count (l : List ℕ) (n : ℕ) (h : ∀ s ∈ l, s < n) :
    ((List.range n).map (fun i => l.count i)).sum = l.length := by
  induction l with
  | nil => simp
  | cons a t ih =>
    have ht : ∀ s ∈ t, s < n := fun s hs => h s (List.mem_cons_of_mem a hs)
    have hcnt : ∀ i, (a :: t).count i = t.count i + (if i = a then 1 else 0) := by
      intro i
      rw [List.count_cons]
      rcases eq_or_ne i a with rfl | hne
      · simp
      · simp [hne, Ne.symm hne]
    calc ((List.range n).map (fun i => (a :: t).count i)).sum
        = ((List.range n).map (fun i => t.count i + (if i = a then 1 else 0))).sum := by
          exact congrArg List.sum (List.map_congr_left (fun i _ => hcnt i))
      _ = ((List.range n).map (fun i => t.count i)).sum
            + ((List.range n).map (fun i => if i = a then 1 else 0)).sum := by
          exact sum_map_nat_add _ _ _
      _ = t.length + 1 := by
          rw [ih ht, sum_range_indicator a n (h a (List.mem_cons_self a t))]
      _ = (a :: t).length := by simp


/-! Projections of the aggregated record and basic stream facts. -/

lemma from_data_entropy (data : List Byte) (m : Bool) :
    (EntStats.from_data data m).entropy = calculate_entropy data m := rfl

lemma from_data_chisquare (data : List Byte) (m : Bool) :
    (EntStats.from_data data m).chisquare = (calculate_chisquare data m).1 := rfl

lemma from_data_p_value (data : List Byte) (m : Bool) :
    (EntStats.from_data data m).p_value = (calculate_chisquare data m).2 := rfl

lemma from_data_mean (data : List Byte) (m : Bool) :
    (EntStats.from_data data m).mean = calculate_mean data := rfl

lemma from_data_pi (data : List Byte) (m : Bool) :
    (EntStats.from_data data m).pi_estimate = estimate_pi data := rfl

lemma from_data_sc (data : List Byte) (m : Bool) :
    (EntStats.from_data data m).serial_correlation = serial_correlation data := rfl

lemma from_data_compression (data : List Byte) (m : Bool) :
    (EntStats.from_data data m).compression_percent =
      if m then fmul (F.val 100.0) (fsub (F.val 1.0) (calculate_entropy data m))
      else fmul (F.val 100.0)
        (fsub (F.val 1.0) (fdiv (calculate_entropy data m) (F.val 8.0))) := rfl

lemma from_data_byte_freq (data : List Byte) :
    (EntStats.from_data data false).byte_frequencies = some (byte_occurrences data) := rfl

lemma from_data_bit_freq_none (data : List Byte) :
    (EntStats.from_data data false).bit_frequencies = none := rfl

lemma from_data_byte_freq_none (data : List Byte) :
    (EntStats.from_data data true).byte_frequencies = none := rfl

lemma from_data_bit_freq (data : List Byte) :
    (EntStats.from_data data true).bit_frequencies = some (bit_occurrences data) := rfl

/-- Every symbol of the flattened bit stream is a bit. -/
lemma bit_stream_lt_two (data : List Byte) :
    ∀ s ∈ data.flatMap bitsOf, s < 2 := by
  intro s hs
  rcases List.mem_flatMap.mp hs with ⟨b, _, hb⟩
  rcases List.mem_map.mp hb with ⟨i, _, hval⟩
  have : b.val >>> i &&& 1 = b.val >>> i % 2 := Nat.and_one_is_mod _
  omega

/-- The flattened bit stream has eight symbols per byte. -/
lemma bit_stream_length (data : List Byte) :
    (data.flatMap bitsOf).length = data.length * 8 := by
  rw [List.length_flatMap]
  have hconst : (data.map (List.length ∘ bitsOf)) = data.map (fun _ => 8) := by
    apply List.map_congr_left
    intro b _
    simp [bitsOf]
  rw [hconst]
  induction data with
  | nil => simp
  | cons a t ih => simp at ih ⊢; omega

/-- Every symbol of the byte stream is below 256. -/
lemma byte_stream_lt (data : List Byte) : ∀ s ∈ data.map Fin.val, s < 256 := by
  intro s hs
  rcases List.mem_map.mp hs with ⟨b, _, hval⟩
  omega

/-- The byte histogram totals the buffer length. -/
lemma byteCounts_total (data : List Byte) :
    ((List.range 256).map (fun i => byteCounts data i)).sum = data.length := by
  have h := sum_range_count (data.map Fin.val) 256 (byte_stream_lt data)
  have hmap : (List.range 256).map (fun i => byteCounts data i)
      = (List.range 256).map (fun i => (data.map Fin.val).count i) := by
    exact List.map_congr_left (fun i _ => byteCounts_apply data i)
  rw [hmap, h, List.length_map]

/-- The bit histogram totals eight times the buffer length. -/
lemma bitCounts_total (data : List Byte) :
    bitCounts data 0 + bitCounts data 1 = data.length * 8 := by
  have h := sum_range_count (data.flatMap bitsOf) 2 (bit_stream_lt_two data)
  have h2 : ((List.range 2).map (fun i => (data.flatMap bitsOf).count i)).sum
      = (data.flatMap bitsOf).count 0 + (data.flatMap bitsOf).count 1 := by
    simp [List.range_succ]
  rw [h2, bit_stream_length] at h
  rw [bitCounts_apply, bitCounts_apply]
  omega

/-! Empty-buffer evaluation helpers. -/

lemma byteCounts_nil (s : ℕ) : byteCounts [] s = 0 := rfl

lemma bitCounts_nil (s : ℕ) : bitCounts [] s = 0 := rfl

/-- Generalized divide-by-zero: fdiv by any real equal to zero is NaN. -/
lemma fdiv_val_of_eq_zero (a b : ℝ) (hb : b = 0) :
    fdiv (F.val a) (F.val b) = F.nan := by
  simp [fdiv, hb]

/-- The entropy pipeline on an all-zero histogram with zero total: every
normalized frequency is NaN (0.0 / 0.0), the positivity filter drops them
all, and the sum over the empty list is 0.0. -/
lemma entropy_pipeline_zero (n : ℕ) (cnt : ℕ → ℕ) (T : ℝ)
    (hcnt : ∀ i, cnt i = 0) (hT : T = 0) :
    fsumF ((((List.range n).map
        (fun i => fdiv (F.val (cnt i)) (F.val T))).filter fIsPos).map
      (fun p => fmul (fneg p) (flog2 p))) = F.val 0 := by
  have hmap : (List.range n).map (fun i => fdiv (F.val (cnt i)) (F.val T))
      = (List.range n).map (fun _ => F.nan) := by
    apply List.map_congr_left
    intro i _
    rw [hcnt i]
    exact fdiv_val_of_eq_zero _ _ hT
  rw [hmap]
  have hfil : ((List.range n).map (fun _ => F.nan)).filter fIsPos = [] := by
    apply List.filter_eq_nil_iff.mpr
    intro a ha
    rcases List.mem_map.mp ha with ⟨i, _, hval⟩
    rw [← hval]
    simp [fIsPos_nan]
  rw [hfil]
  rfl

/-- On the empty buffer the entropy is 0.0 in both modes. -/
lemma entropy_nil (m : Bool) : calculate_entropy [] m = F.val 0 := by
  cases m
  · exact entropy_pipeline_zero 256 (byteCounts []) ((List.length ([] : List Byte) : ℕ) : ℝ)
      (fun _ => rfl) (by simp)
  · exact entropy_pipeline_zero 2 (bitCounts []) (8.0 * ((List.length ([] : List Byte) : ℕ) : ℝ))
      (fun _ => rfl) (by simp)

/-- The chi-square sum over an all-zero expected value is NaN: every term is
0.0 / 0.0. -/
lemma chisq_pipeline_nan (n : ℕ) (cnt : ℕ → ℕ) (ex : F) (hn : 0 < n)
    (hex : ex = F.val 0) :
    fsumF (((List.range n).map (fun i => F.val (cnt i))).map
      (fun obs => fdiv (fmul (fsub obs ex) (fsub obs ex)) ex)) = F.nan := by
  subst hex
  rw [List.map_map]
  have hmap : ((List.range n).map
      ((fun obs => fdiv (fmul (fsub obs (F.val 0)) (fsub obs (F.val 0))) (F.val 0)) ∘
        (fun i => F.val (cnt i))))
      = (List.range n).map (fun _ => F.nan) := by
    apply List.map_congr_left
    intro i _
    simp only [Function.comp_apply, fsub_val, fmul_val]
    exact fdiv_val_zero _
  rw [hmap]
  simp only [fsumF]
  exact foldl_fadd_of_mem_nan _ _
    (List.mem_map.mpr ⟨0, List.mem_range.mpr hn, rfl⟩)

/-- On the empty buffer the chi-square statistic is NaN in both modes. -/
lemma chisq_nil (m : Bool) : (calculate_chisquare [] m).1 = F.nan := by
  cases m
  · have hex : fdiv (F.val ((List.length ([] : List Byte) : ℕ) : ℝ)) (F.val 256.0)
        = F.val 0 := by
      rw [show ((List.length ([] : List Byte) : ℕ) : ℝ) = 0 by simp]
      rw [fdiv_val_of_ne _ _ (by norm_num)]
      norm_num
    exact chisq_pipeline_nan 256 (byteCounts []) _ (by norm_num) hex
  · have hex : fdiv (F.val ((List.length ([] : List Byte) * 8 : ℕ) : ℝ)) (F.val 2.0)
        = F.val 0 := by
      rw [show ((List.length ([] : List Byte) * 8 : ℕ) : ℝ) = 0 by simp]
      rw [fdiv_val_of_ne _ _ (by norm_num)]
      norm_num
    exact chisq_pipeline_nan 2 (bitCounts []) _ (by norm_num) hex

/-- On the empty buffer the mean is NaN (0.0 / 0.0). -/
lemma mean_nil : calculate_mean [] = F.nan := by
  simp only [calculate_mean]
  exact fdiv_val_of_eq_zero _ _ (by simp)

/-- On the empty buffer the compression percentage is 100.0 in both modes:
the entropy is 0.0 and 100 * (1 - 0) = 100. -/
lemma compression_nil (m : Bool) :
    (EntStats.from_data [] m).compression_percent = F.val 100 := by
  rw [from_data_compression]
  cases m
  · rw [if_neg (by simp)]
    rw [entropy_nil, fdiv_val_of_ne _ _ (by norm_num : (8.0 : ℝ) ≠ 0), fsub_val, fmul_val]
    exact congrArg F.val (by norm_num)
  · rw [if_pos rfl]
    rw [entropy_nil, fsub_val, fmul_val]
    exact congrArg F.val (by norm_num)

/-- The p-value pipeline of the source, as a function of the chi-square
statistic and the degrees of freedom. -/
noncomputable def pOf (chi : F) (dof : ℝ) : F :=
  fsub (F.val 1.0) (fmul (F.val 0.5)
    (ferfc (fdiv (fneg (fsqrt (fsub chi (F.val dof)))) (F.val (Real.sqrt 2)))))

/-- In both modes the p-value component is the p-value pipeline applied to
the chi-square component, with 1 or 255 degrees of freedom. -/
lemma chisq_snd_eq_pOf (data : List Byte) (m : Bool) :
    (calculate_chisquare data m).2
      = pOf (calculate_chisquare data m).1 (if m then 1.0 else 255.0) := by
  cases m <;> rfl

/-- C1 counterexample: on the empty buffer (byte mode) the
compression_percent field is not 0.0 (it is 100.0). -/
theorem c1_counterexample :
    (EntStats.from_data [] false).compression_percent ≠ F.val 0 := by
  rw [compression_nil]
  intro h
  have h100 := val_injective h
  norm_num at h100

/-- C1 (amended): on the empty buffer, for either mode, the entropy field is
0.0 and the compression_percent field is 100.0 (the entropy sum over the
empty frequency table is 0.0, hence compression is 100 * (1 - 0)). -/
theorem c1_empty_stats (m : Bool) :
    (EntStats.from_data [] m).entropy = F.val 0 ∧
    (EntStats.from_data [] m).compression_percent = F.val 100 := by
  constructor
  · rw [from_data_entropy]
    exact entropy_nil m
  · exact compression_nil m

/-- C9: the mean field is the sum of the raw byte values divided by the
buffer length, independently of the mode, and is NaN on the empty buffer. -/
theorem c9_mean (data : List Byte) (m : Bool) :
    (EntStats.from_data data m).mean = (EntStats.from_data data false).mean ∧
    (data ≠ [] → (EntStats.from_data data m).mean
      = F.val ((data.map (fun b => (b.val : ℝ))).sum / (data.length : ℝ))) ∧
    (data = [] → (EntStats.from_data data m).mean = F.nan) := by
  refine ⟨rfl, ?_, ?_⟩
  · intro h
    rw [from_data_mean]
    have hlen : ((data.length : ℕ) : ℝ) ≠ 0 := by
      have : data.length ≠ 0 := fun hz => h (List.length_eq_zero.mp hz)
      exact_mod_cast this
    exact fdiv_val_of_ne _ _ hlen
  · intro h
    subst h
    rw [from_data_mean]
    exact mean_nil

/-- C9 witness: the two-byte buffer 0x00 0xFF has mean 127.5. -/
theorem c9_mean_witness :
    (EntStats.from_data [0, 255] true).mean = F.val 127.5 := by
  have h := (c9_mean [0, 255] true).2.1 (by simp)
  rw [h]
  exact congrArg F.val (by norm_num [show ((255 : Byte) : ℕ) = 255 from rfl])

/-- C7: the mode alone decides which frequency table is populated; the byte
table always has exactly 256 entries, entry i describing symbol i (with its
count and fraction), including zero-count symbols. -/
theorem c7_frequency_tables (data : List Byte) :
    (EntStats.from_data data false).byte_frequencies = some (byte_occurrences data) ∧
    (EntStats.from_data data false).bit_frequencies = none ∧
    (EntStats.from_data data true).bit_frequencies = some (bit_occurrences data) ∧
    (EntStats.from_data data true).byte_frequencies = none ∧
    (byte_occurrences data).length = 256 ∧
    ∀ i : Fin 256, (byte_occurrences data)[i.val]?
      = some (i.val, byteCounts data i.val,
          fdiv (F.val (byteCounts data i.val)) (F.val (data.length : ℝ))) := by
  refine ⟨rfl, rfl, rfl, rfl, by simp [byte_occurrences], ?_⟩
  intro i
  simp only [byte_occurrences, List.getElem?_map]
  rw [List.getElem?_range i.isLt]
  rfl

/-- C8: the counts of the populated frequency table sum to the number of
symbols processed (len bytes, or 8 * len bits), and for a non-empty buffer
the fractions sum to exactly 1.0 in this exact-arithmetic model (hence
within any floating-point tolerance). -/
theorem c8_frequency_sums (data : List Byte) :
    ((byte_occurrences data).map (fun e => e.2.1)).sum = data.length ∧
    (bit_occurrences data).1.1 + (bit_occurrences data).2.1 = data.length * 8 ∧
    (data ≠ [] → fsumF ((byte_occurrences data).map (fun e => e.2.2)) = F.val 1) ∧
    (data ≠ [] →
      fadd (bit_occurrences data).1.2 (bit_occurrences data).2.2 = F.val 1) := by
  refine ⟨?_, ?_, ?_, ?_⟩
  · simp only [byte_occurrences, List.map_map]
    exact byteCounts_total data
  · exact bitCounts_total data
  · intro h
    have hlen : ((data.length : ℕ) : ℝ) ≠ 0 := by
      have : data.length ≠ 0 := fun hz => h (List.length_eq_zero.mp hz)
      exact_mod_cast this
    simp only [byte_occurrences, List.map_map]
    have hmap : ((List.range 256).map ((fun (e : ℕ × ℕ × F) => e.2.2) ∘ (fun i =>
        (i, byteCounts data i,
          fdiv (F.val (byteCounts data i)) (F.val (data.length : ℝ))))))
        = ((List.range 256).map (fun i => ((byteCounts data i : ℝ) / (data.length : ℝ)))).map
            F.val := by
      rw [List.map_map]
      apply List.map_congr_left
      intro i _
      simp only [Function.comp_apply]
      exact fdiv_val_of_ne _ _ hlen
    rw [hmap, fsumF_map_val]
    congr 1
    rw [sum_map_div]
    have hcast : ((List.range 256).map (fun i => ((byteCounts data i : ℕ) : ℝ))).sum
        = (((List.range 256).map (fun i => byteCounts data i)).sum : ℝ) := by
      rw [Nat.cast_list_sum, List.map_map]
      rfl
    rw [hcast, byteCounts_total]
    exact div_self hlen
  · intro h
    have hlen : ((data.length * 8 : ℕ) : ℝ) ≠ 0 := by
      have : data.length ≠ 0 := fun hz => h (List.length_eq_zero.mp hz)
      have h8 : data.length * 8 ≠ 0 := by omega
      exact_mod_cast h8
    show fadd (fdiv (F.val (bitCounts data 0)) (F.val ((data.length * 8 : ℕ) : ℝ)))
      (fdiv (F.val (bitCounts data 1)) (F.val ((data.length * 8 : ℕ) : ℝ))) = F.val 1
    rw [fdiv_val_of_ne _ _ hlen, fdiv_val_of_ne _ _ hlen, fadd_val, div_add_div_same]
    have hsum : ((bitCounts data 0 : ℕ) : ℝ) + ((bitCounts data 1 : ℕ) : ℝ)
        = ((data.length * 8 : ℕ) : ℝ) := by
      rw [← Nat.cast_add]
      exact_mod_cast congrArg (fun n : ℕ => (n : ℝ)) (bitCounts_total data)
    rw [hsum]
    exact congrArg F.val (div_self hlen)

/-- C8 witness: on the one-byte buffer 0x00 both fraction sums are 1.0. -/
theorem c8_frequency_sums_witness :
    fsumF ((byte_occurrences [0]).map (fun e => e.2.2)) = F.val 1 ∧
    fadd (bit_occurrences [0]).1.2 (bit_occurrences [0]).2.2 = F.val 1 :=
  ⟨(c8_frequency_sums [0]).2.2.1 (by simp), (c8_frequency_sums [0]).2.2.2 (by simp)⟩

/-- Spec-side coordinate: the big-endian 24-bit integer of three bytes. -/
def be24 (c : Byte × Byte × Byte) : ℕ :=
  c.1.val * 2 ^ 16 + c.2.1.val * 2 ^ 8 + c.2.2.val

/-- Spec-side hit predicate: x^2 + y^2 < 2^48 on the big-endian coordinates. -/
def hitSpec (ch : (Byte × Byte × Byte) × (Byte × Byte × Byte)) : Bool :=
  decide (be24 ch.1 ^ 2 + be24 ch.2 ^ 2 < 2 ^ 48)

/-- The shift-and-or coordinate of the source equals the big-endian value. -/
lemma coord24_eq_be24 (c : Byte × Byte × Byte) : coord24 c = be24 c := by
  rcases c with ⟨c0, c1, c2⟩
  simp only [coord24, be24, Nat.shiftLeft_eq]
  have h1 : c1.val * 2 ^ 8 < 2 ^ 16 := by
    have := c1.isLt
    have e8 : (2 : ℕ) ^ 8 = 256 := by norm_num
    have e16 : (2 : ℕ) ^ 16 = 65536 := by norm_num
    rw [e8, e16]
    omega
  have h2 : c2.val < 2 ^ 8 := by
    have := c2.isLt
    omega
  have step1 : c0.val * 2 ^ 16 ||| c1.val * 2 ^ 8 = c0.val * 2 ^ 16 + c1.val * 2 ^ 8 := by
    calc c0.val * 2 ^ 16 ||| c1.val * 2 ^ 8
        = 2 ^ 16 * c0.val ||| c1.val * 2 ^ 8 := by rw [mul_comm]
      _ = 2 ^ 16 * c0.val + c1.val * 2 ^ 8 := (Nat.mul_add_lt_is_or h1 _).symm
      _ = c0.val * 2 ^ 16 + c1.val * 2 ^ 8 := by ring
  rw [step1]
  have hrw : c0.val * 2 ^ 16 + c1.val * 2 ^ 8 = 2 ^ 8 * (2 ^ 8 * c0.val + c1.val) := by
    ring
  calc c0.val * 2 ^ 16 + c1.val * 2 ^ 8 ||| c2.val
      = 2 ^ 8 * (2 ^ 8 * c0.val + c1.val) ||| c2.val := by rw [hrw]
    _ = 2 ^ 8 * (2 ^ 8 * c0.val + c1.val) + c2.val := (Nat.mul_add_lt_is_or h2 _).symm
    _ = c0.val * 2 ^ 16 + c1.val * 2 ^ 8 + c2.val := by ring

/-- The coordinates are 24-bit values. -/
lemma coord24_lt (c : Byte × Byte × Byte) : coord24 c < 2 ^ 24 := by
  rw [coord24_eq_be24]
  rcases c with ⟨c0, c1, c2⟩
  simp only [be24]
  have h0 := c0.isLt
  have h1 := c1.isLt
  have h2 := c2.isLt
  have e16 : (2 : ℕ) ^ 16 = 65536 := by norm_num
  have e8 : (2 : ℕ) ^ 8 = 256 := by norm_num
  have e24 : (2 : ℕ) ^ 24 = 16777216 := by norm_num
  rw [e16, e8, e24]
  omega

/-- The hit test of the source agrees with the spec-side hit predicate. -/
lemma piHit_eq_hitSpec (ch : (Byte × Byte × Byte) × (Byte × Byte × Byte)) :
    piHit ch = hitSpec ch := by
  simp only [piHit, hitSpec]
  apply decide_eq_decide.mpr
  rw [coord24_eq_be24, coord24_eq_be24, Nat.shiftLeft_eq, one_mul, pow_two, pow_two]

/-- A buffer of fewer than 6 bytes yields no chunks. -/
lemma chunks6_nil_of_short (data : List Byte) (h : data.length < 6) :
    chunks6 data = [] := by
  rcases data with _ | ⟨a, _ | ⟨b, _ | ⟨c, _ | ⟨d, _ | ⟨e, _ | ⟨f, t⟩⟩⟩⟩⟩⟩
  · rfl
  · rfl
  · rfl
  · rfl
  · rfl
  · rfl
  · simp at h
    omega

/-- C4: the pi_estimate field equals 4 * hits / total over the non-overlapping
6-byte chunks with big-endian 24-bit coordinates and the strict quarter-circle
hit test, and it is exactly 0.0 when fewer than 6 bytes are supplied. -/
theorem c4_pi_estimate (data : List Byte) (m : Bool) :
    ((chunks6 data).length ≠ 0 →
      (EntStats.from_data data m).pi_estimate
        = F.val (4 * (((chunks6 data).filter hitSpec).length : ℝ)
            / ((chunks6 data).length : ℝ))) ∧
    (data.length < 6 → (EntStats.from_data data m).pi_estimate = F.val 0) := by
  constructor
  · intro h
    rw [from_data_pi]
    simp only [estimate_pi]
    rw [if_pos (Nat.pos_of_ne_zero h)]
    have hfil : (chunks6 data).filter piHit = (chunks6 data).filter hitSpec :=
      List.filter_congr (fun ch _ => piHit_eq_hitSpec ch)
    rw [hfil]
    have hlen : (((chunks6 data).length : ℕ) : ℝ) ≠ 0 := by
      exact_mod_cast h
    rw [fmul_val, fdiv_val_of_ne _ _ hlen]
    exact congrArg F.val (by norm_num)
  · intro h
    rw [from_data_pi]
    simp only [estimate_pi]
    rw [chunks6_nil_of_short data h]
    norm_num

/-- C4 witness: six zero bytes give one chunk, a hit, and estimate 4.0. -/
theorem c4_pi_estimate_witness :
    (EntStats.from_data [0, 0, 0, 0, 0, 0] false).pi_estimate
      = F.val (4 * (((chunks6 [0, 0, 0, 0, 0, 0]).filter hitSpec).length : ℝ)
          / ((chunks6 [0, 0, 0, 0, 0, 0]).length : ℝ)) :=
  (c4_pi_estimate [0, 0, 0, 0, 0, 0] false).1 (by decide)

/-- C10: the u64 hit-test arithmetic of the Pi estimator never overflows:
both coordinates are below 2^24, so x * x + y * y is below 2^49 and is left
unchanged by reduction modulo 2^64. -/
theorem c10_pi_no_overflow (data : List Byte) :
    ∀ ch ∈ chunks6 data,
      coord24 ch.1 * coord24 ch.1 + coord24 ch.2 * coord24 ch.2 < 2 ^ 49 ∧
      (coord24 ch.1 * coord24 ch.1 + coord24 ch.2 * coord24 ch.2) % 2 ^ 64
        = coord24 ch.1 * coord24 ch.1 + coord24 ch.2 * coord24 ch.2 := by
  intro ch _
  have h1 : coord24 ch.1 < 2 ^ 24 := coord24_lt _
  have h2 : coord24 ch.2 < 2 ^ 24 := coord24_lt _
  have hx : coord24 ch.1 * coord24 ch.1 + coord24 ch.2 * coord24 ch.2 < 2 ^ 49 := by
    have ha : coord24 ch.1 * coord24 ch.1 < 2 ^ 24 * 2 ^ 24 :=
      Nat.mul_lt_mul'' h1 h1
    have hb : coord24 ch.2 * coord24 ch.2 < 2 ^ 24 * 2 ^ 24 :=
      Nat.mul_lt_mul'' h2 h2
    have hpow : (2 : ℕ) ^ 24 * 2 ^ 24 + 2 ^ 24 * 2 ^ 24 = 2 ^ 49 := by norm_num
    omega
  refine ⟨hx, Nat.mod_eq_of_lt ?_⟩
  have : (2 : ℕ) ^ 49 < 2 ^ 64 := by norm_num
  omega

/-- C10 witness: the all-0xFF chunk stays below 2^49 and is unchanged mod
2^64. -/
theorem c10_pi_no_overflow_witness :
    coord24 (255, 255, 255) * coord24 (255, 255, 255)
        + coord24 (255, 255, 255) * coord24 (255, 255, 255) < 2 ^ 49 ∧
      (coord24 (255, 255, 255) * coord24 (255, 255, 255)
        + coord24 (255, 255, 255) * coord24 (255, 255, 255)) % 2 ^ 64
        = coord24 (255, 255, 255) * coord24 (255, 255, 255)
            + coord24 (255, 255, 255) * coord24 (255, 255, 255) :=
  c10_pi_no_overflow [255, 255, 255, 255, 255, 255]
    ((255, 255, 255), (255, 255, 255)) (by decide)

lemma val_ne_nan (x : ℝ) : F.val x ≠ F.nan := fun h => F.noConfusion h

/-- The lag-1 pair list has one entry per adjacent pair. -/
lemma scPairs_length (data : List Byte) :
    (scPairs data).length = data.length - 1 := by
  simp [scPairs, List.length_zip]

/-- List form of the Cauchy-Schwarz inequality specialized to the constant
weight: the squared sum is at most length times the sum of squares. -/
lemma list_sq_sum_le (l : List ℝ) :
    l.sum ^ 2 ≤ (l.length : ℝ) * (l.map (fun x => x * x)).sum := by
  induction l with
  | nil => simp
  | cons a t ih =>
    simp only [List.sum_cons, List.map_cons, List.length_cons]
    have hq : 0 ≤ (t.map (fun x => x * x)).sum := by
      apply List.sum_nonneg
      intro x hx
      rcases List.mem_map.mp hx with ⟨y, _, rfl⟩
      exact mul_self_nonneg y
    by_cases ht : t = []
    · subst ht
      simp only [List.sum_nil, List.map_nil, List.length_nil]
      norm_num [pow_two]
    · have hn : (0 : ℝ) < (t.length : ℝ) := by
        have := List.length_pos.mpr ht
        exact_mod_cast this
      push_cast
      nlinarith [ih, sq_nonneg ((t.length : ℝ) * a - t.sum), hq, hn,
        mul_le_mul_of_nonneg_left ih hn.le]

/-- The squared serial-correlation denominator is a product of two
Cauchy-Schwarz gaps, hence nonnegative. -/
lemma scDenomSq_nonneg (data : List Byte) : 0 ≤ scDenomSq data := by
  simp only [scDenomSq]
  apply mul_nonneg
  · rw [sub_nonneg]
    have h := list_sq_sum_le ((scPairs data).map (fun p => p.1))
    rw [List.map_map, List.length_map, scPairs_length] at h
    exact h
  · rw [sub_nonneg]
    have h := list_sq_sum_le ((scPairs data).map (fun p => p.2))
    rw [List.map_map, List.length_map, scPairs_length] at h
    exact h

/-- On an all-equal buffer the squared denominator vanishes. -/
lemma scDenomSq_const (data : List Byte) (c : Byte) (h : ∀ b ∈ data, b = c) :
    scDenomSq data = 0 := by
  have hps : scPairs data
      = List.replicate (data.length - 1) ((c.val : ℝ), (c.val : ℝ)) := by
    rw [List.eq_replicate_iff]
    refine ⟨scPairs_length data, ?_⟩
    intro p hp
    rcases List.mem_map.mp hp with ⟨q, hq, rfl⟩
    have hq1 : q.1 ∈ data := (List.of_mem_zip hq).1
    have hq2 : q.2 ∈ data := List.mem_of_mem_tail (List.of_mem_zip hq).2
    rw [h q.1 hq1, h q.2 hq2]
  simp only [scDenomSq, hps, List.map_replicate, List.sum_replicate, nsmul_eq_mul]
  ring

/-- The source returns the sentinel as soon as the computed denominator is
0.0, for any buffer of length at least 2. -/
lemma sc_sentinel_of_denom_zero (data : List Byte) (h0 : scDenomSq data = 0) :
    serial_correlation data = F.val (-99999.0) := by
  by_cases hlen : data.length < 2
  · simp only [serial_correlation]
    rw [if_pos hlen]
  · simp only [serial_correlation]
    rw [if_neg hlen, h0, fsqrt_val_of_nonneg _ le_rfl]
    rw [if_pos (congrArg F.val (by norm_num : Real.sqrt 0 = (0.0 : ℝ)))]

/-- C3: the serial_correlation field is exactly the sentinel -99999.0 for
buffers of fewer than 2 bytes and for any buffer whose correlation
denominator computes to zero (in particular all-equal buffers of length at
least 2), and it is never NaN. -/
theorem c3_serial_correlation (data : List Byte) (c : Byte) :
    (data.length < 2 → serial_correlation data = F.val (-99999.0)) ∧
    (scDenomSq data = 0 → serial_correlation data = F.val (-99999.0)) ∧
    (2 ≤ data.length → (∀ b ∈ data, b = c) →
      serial_correlation data = F.val (-99999.0)) ∧
    serial_correlation data ≠ F.nan := by
  refine ⟨?_, sc_sentinel_of_denom_zero data, ?_, ?_⟩
  · intro h
    simp only [serial_correlation]
    rw [if_pos h]
  · intro _ hconst
    exact sc_sentinel_of_denom_zero data (scDenomSq_const data c hconst)
  · by_cases hlen : data.length < 2
    · simp only [serial_correlation]
      rw [if_pos hlen]
      exact val_ne_nan _
    · simp only [serial_correlation]
      rw [if_neg hlen, fsqrt_val_of_nonneg _ (scDenomSq_nonneg data)]
      by_cases h0 : F.val (Real.sqrt (scDenomSq data)) = F.val 0.0
      · rw [if_pos h0]
        exact val_ne_nan _
      · rw [if_neg h0]
        have hs : Real.sqrt (scDenomSq data) ≠ 0 := by
          intro hz
          exact h0 (congrArg F.val (by rw [hz]; norm_num))
        rw [fdiv_val_of_ne _ _ hs]
        exact val_ne_nan _

/-- C3 witness: a two-byte constant buffer and a one-byte buffer both return
the sentinel. -/
theorem c3_serial_correlation_witness :
    serial_correlation [3, 3] = F.val (-99999.0) ∧
    serial_correlation [7] = F.val (-99999.0) :=
  ⟨(c3_serial_correlation [3, 3] 3).2.2.1 (by simp) (by decide),
   (c3_serial_correlation [7] 3).1 (by simp)⟩

lemma fsub_nan_left (x : F) : fsub F.nan x = F.nan := by cases x <;> rfl

lemma fsub_nan_right (x : F) : fsub x F.nan = F.nan := by cases x <;> rfl

lemma fmul_nan_right (x : F) : fmul x F.nan = F.nan := by cases x <;> rfl

lemma fdiv_nan_left (x : F) : fdiv F.nan x = F.nan := by cases x <;> rfl

lemma fneg_nan : fneg F.nan = F.nan := rfl

lemma ferfc_nan : ferfc F.nan = F.nan := rfl

lemma ferfc_val (a : ℝ) : ferfc (F.val a) = F.val (erfc a) := rfl

/-- The Gaussian density is integrable on the line. -/
lemma gaussian_integrable :
    MeasureTheory.Integrable (fun t : ℝ => Real.exp (-(t ^ 2))) := by
  have h := integrable_exp_neg_mul_sq (show (0 : ℝ) < 1 by norm_num)
  simpa using h

/-- The complementary error function is nonnegative. -/
lemma erfc_nonneg (x : ℝ) : 0 ≤ erfc x := by
  apply mul_nonneg
  · exact div_nonneg (by norm_num) (Real.sqrt_nonneg _)
  · exact MeasureTheory.setIntegral_nonneg measurableSet_Ioi
      (fun t _ => (Real.exp_pos _).le)

/-- The complementary error function is at most 2. -/
lemma erfc_le_two (x : ℝ) : erfc x ≤ 2 := by
  have hsqrt_pos : 0 < Real.sqrt Real.pi := Real.sqrt_pos.mpr Real.pi_pos
  have hint : (∫ t in Set.Ioi x, Real.exp (-(t ^ 2))) ≤ ∫ t : ℝ, Real.exp (-(t ^ 2)) :=
    MeasureTheory.setIntegral_le_integral gaussian_integrable
      (MeasureTheory.ae_of_all _ (fun t => (Real.exp_pos _).le))
  have hgauss : (∫ t : ℝ, Real.exp (-(t ^ 2))) = Real.sqrt Real.pi := by
    have h := integral_gaussian 1
    simpa using h
  have hle : (∫ t in Set.Ioi x, Real.exp (-(t ^ 2))) ≤ Real.sqrt Real.pi := by
    rw [← hgauss]
    exact hint
  calc erfc x
      = (2 / Real.sqrt Real.pi) * ∫ t in Set.Ioi x, Real.exp (-(t ^ 2)) := rfl
    _ ≤ (2 / Real.sqrt Real.pi) * Real.sqrt Real.pi := by
        apply mul_le_mul_of_nonneg_left hle
        exact div_nonneg (by norm_num) hsqrt_pos.le
    _ = 2 := div_mul_cancel₀ 2 (ne_of_gt hsqrt_pos)

/-- The p-value pipeline propagates a NaN chi-square statistic. -/
lemma pOf_nan (dof : ℝ) : pOf F.nan dof = F.nan := by
  simp only [pOf, fsub_nan_left, fsqrt_nan, fneg_nan, fdiv_nan_left, ferfc_nan,
    fmul_nan_right, fsub_nan_right]

/-- Below the degrees of freedom the square root argument is negative and the
p-value pipeline yields NaN. -/
lemma pOf_val_of_lt (c dof : ℝ) (h : c < dof) : pOf (F.val c) dof = F.nan := by
  simp only [pOf, fsub_val]
  rw [fsqrt_val_of_neg _ (by linarith)]
  simp only [fneg_nan, fdiv_nan_left, ferfc_nan, fmul_nan_right, fsub_nan_right]

/-- At or above the degrees of freedom the p-value pipeline is the closed
erfc formula. -/
lemma pOf_val_of_ge (c dof : ℝ) (h : dof ≤ c) :
    pOf (F.val c) dof
      = F.val (1.0 - 0.5 * erfc (-(Real.sqrt (c - dof)) / Real.sqrt 2)) := by
  simp only [pOf, fsub_val]
  rw [fsqrt_val_of_nonneg _ (by linarith), fneg_val,
    fdiv_val_of_ne _ _ (ne_of_gt (Real.sqrt_pos.mpr (by norm_num))), ferfc_val,
    fmul_val, fsub_val]

/-- Whenever the chi-square value is at least the degrees of freedom, the
p-value pipeline lands in the unit interval. -/
lemma pOf_bounds (chi : F) (dof : ℝ) (h : fle (F.val dof) chi) :
    fle (F.val 0) (pOf chi dof) ∧ fle (pOf chi dof) (F.val 1) := by
  cases chi with
  | nan => exact absurd h (fle_nan_right _)
  | val c =>
    have hc : dof ≤ c := h
    rw [pOf_val_of_ge c dof hc]
    have h2 := erfc_le_two (-(Real.sqrt (c - dof)) / Real.sqrt 2)
    have h0 := erfc_nonneg (-(Real.sqrt (c - dof)) / Real.sqrt 2)
    constructor
    · exact (fle_val _ _).mpr (by nlinarith)
    · exact (fle_val _ _).mpr (by nlinarith)

/-- Chi-square sum pipeline over real values with a nonzero expected count. -/
lemma chisq_pipeline_eq (n : ℕ) (cnt : ℕ → ℕ) (ex : ℝ) (hex : ex ≠ 0) :
    fsumF (((List.range n).map (fun i => F.val (cnt i))).map
      (fun obs => fdiv (fmul (fsub obs (F.val ex)) (fsub obs (F.val ex))) (F.val ex)))
    = F.val (((List.range n).map
        (fun i => ((cnt i : ℝ) - ex) * ((cnt i : ℝ) - ex) / ex)).sum) := by
  rw [List.map_map]
  have hmap : (List.range n).map
      ((fun obs => fdiv (fmul (fsub obs (F.val ex)) (fsub obs (F.val ex))) (F.val ex)) ∘
        (fun i => F.val (cnt i)))
      = ((List.range n).map
          (fun i => ((cnt i : ℝ) - ex) * ((cnt i : ℝ) - ex) / ex)).map F.val := by
    rw [List.map_map]
    apply List.map_congr_left
    intro i _
    simp only [Function.comp_apply, fsub_val, fmul_val]
    exact fdiv_val_of_ne _ _ hex
  rw [hmap, fsumF_map_val]

/-- Byte-mode chi-square statistic on a non-empty buffer, in closed form. -/
lemma chisq_fst_byte (data : List Byte) (h : data ≠ []) :
    (calculate_chisquare data false).1
      = F.val (((List.range 256).map (fun i =>
          ((byteCounts data i : ℝ) - ((data.length : ℕ) : ℝ) / 256.0)
            * ((byteCounts data i : ℝ) - ((data.length : ℕ) : ℝ) / 256.0)
            / (((data.length : ℕ) : ℝ) / 256.0))).sum) := by
  have hlen : (0 : ℝ) < ((data.length : ℕ) : ℝ) := by
    exact_mod_cast List.length_pos.mpr h
  simp only [calculate_chisquare]
  rw [if_neg Bool.false_ne_true]
  simp only [fdiv_val_of_ne ((data.length : ℕ) : ℝ) 256.0 (by norm_num : (256.0 : ℝ) ≠ 0)]
  exact chisq_pipeline_eq 256 (byteCounts data) _
    (ne_of_gt (div_pos hlen (by norm_num)))

/-- Bit-mode chi-square statistic on a non-empty buffer, in closed form. -/
lemma chisq_fst_bit (data : List Byte) (h : data ≠ []) :
    (calculate_chisquare data true).1
      = F.val (((List.range 2).map (fun i =>
          ((bitCounts data i : ℝ) - ((data.length * 8 : ℕ) : ℝ) / 2.0)
            * ((bitCounts data i : ℝ) - ((data.length * 8 : ℕ) : ℝ) / 2.0)
            / (((data.length * 8 : ℕ) : ℝ) / 2.0))).sum) := by
  have hlen : (0 : ℝ) < ((data.length * 8 : ℕ) : ℝ) := by
    have : data.length ≠ 0 := fun hz => h (List.length_eq_zero.mp hz)
    have h8 : 0 < data.length * 8 := by omega
    exact_mod_cast h8
  simp only [calculate_chisquare]
  rw [if_pos trivial]
  simp only [fdiv_val_of_ne ((data.length * 8 : ℕ) : ℝ) 2.0 (by norm_num : (2.0 : ℝ) ≠ 0)]
  exact chisq_pipeline_eq 2 (bitCounts data) _
    (ne_of_gt (div_pos hlen (by norm_num)))

/-- The closed-form chi-square sum is nonnegative. -/
lemma chisq_sum_nonneg (n : ℕ) (cnt : ℕ → ℕ) (ex : ℝ) (hex : 0 ≤ ex) :
    0 ≤ ((List.range n).map
      (fun i => ((cnt i : ℝ) - ex) * ((cnt i : ℝ) - ex) / ex)).sum := by
  apply List.sum_nonneg
  intro x hx
  rcases List.mem_map.mp hx with ⟨i, _, rfl⟩
  exact div_nonneg (mul_self_nonneg _) hex

/-- C2 counterexample: on the empty buffer the chisquare field is NaN, so it
is not greater than or equal to 0. -/
theorem c2_counterexample :
    ¬ fle (F.val 0) (EntStats.from_data [] false).chisquare := by
  rw [from_data_chisquare, chisq_nil]
  exact fle_nan_right _

/-- C2 (amended): for every non-empty buffer and either mode the chisquare
field is at least 0 (on the empty buffer it is NaN, not a number at least 0),
and whenever the chisquare field is at least the degrees of freedom (1 in bit
mode, 255 in byte mode) the p_value field lies in [0, 1]. -/
theorem c2_chisquare_nonneg_pvalue_unit (data : List Byte) (m : Bool) :
    (data ≠ [] → fle (F.val 0) (EntStats.from_data data m).chisquare) ∧
    (fle (F.val (if m then (1 : ℝ) else 255)) (EntStats.from_data data m).chisquare →
      fle (F.val 0) (EntStats.from_data data m).p_value ∧
      fle (EntStats.from_data data m).p_value (F.val 1)) := by
  constructor
  · intro h
    rw [from_data_chisquare]
    cases m
    · rw [chisq_fst_byte data h]
      exact (fle_val _ _).mpr (chisq_sum_nonneg 256 (byteCounts data) _
        (div_nonneg (Nat.cast_nonneg _) (by norm_num)))
    · rw [chisq_fst_bit data h]
      exact (fle_val _ _).mpr (chisq_sum_nonneg 2 (bitCounts data) _
        (div_nonneg (Nat.cast_nonneg _) (by norm_num)))
  · intro h
    rw [from_data_p_value, chisq_snd_eq_pOf]
    apply pOf_bounds
    rw [← from_data_chisquare]
    have hnum : (if m then (1.0 : ℝ) else 255.0) = (if m then (1 : ℝ) else 255) := by
      cases m <;> norm_num
    rw [hnum]
    exact h

/-- The one-byte buffer 0x00 in bit mode has chi-square exactly 8: counts are
(8, 0), expected is 4, and (8-4)^2/4 + (0-4)^2/4 = 8. -/
lemma chisq_from_data_single_zero_bit :
    (EntStats.from_data [0] true).chisquare = F.val 8 := by
  rw [from_data_chisquare, chisq_fst_bit [0] (by simp)]
  have hc0 : bitCounts [0] 0 = 8 := by decide
  have hc1 : bitCounts [0] 1 = 0 := by decide
  apply congrArg F.val
  rw [show List.range 2 = [0, 1] by decide]
  simp only [List.map_cons, List.map_nil, List.sum_cons, List.sum_nil, hc0, hc1,
    List.length_cons, List.length_nil]
  norm_num

/-- C2 witness: the one-byte buffer 0x00 in bit mode has chisquare 8, at
least 0 and at least the 1 degree of freedom, and its p-value is in [0, 1]. -/
theorem c2_witness :
    fle (F.val 0) (EntStats.from_data [0] true).chisquare ∧
    (fle (F.val 0) (EntStats.from_data [0] true).p_value ∧
      fle (EntStats.from_data [0] true).p_value (F.val 1)) := by
  refine ⟨(c2_chisquare_nonneg_pvalue_unit [0] true).1 (by simp),
    (c2_chisquare_nonneg_pvalue_unit [0] true).2 ?_⟩
  rw [chisq_from_data_single_zero_bit]
  rw [if_pos rfl]
  exact (fle_val _ _).mpr (by norm_num)

/-- C5: the p_value field is 1 - 0.5 * erfc (-z / sqrt 2) where
z = sqrt (chisquare - degrees_of_freedom) with 1 degree of freedom in bit
mode and 255 in byte mode; when the chisquare field is below the degrees of
freedom (or is itself NaN) the p_value field is NaN, unclamped. -/
theorem c5_pvalue_formula (data : List Byte) (m : Bool) :
    (∀ c : ℝ, (EntStats.from_data data m).chisquare = F.val c →
      (((if m then (1 : ℝ) else 255) ≤ c →
        (EntStats.from_data data m).p_value
          = F.val (1 - 0.5
              * erfc (-(Real.sqrt (c - (if m then (1 : ℝ) else 255))) / Real.sqrt 2))) ∧
      (c < (if m then (1 : ℝ) else 255) →
        (EntStats.from_data data m).p_value = F.nan))) ∧
    ((EntStats.from_data data m).chisquare = F.nan →
      (EntStats.from_data data m).p_value = F.nan) := by
  have hnum : (if m then (1.0 : ℝ) else 255.0) = (if m then (1 : ℝ) else 255) := by
    cases m <;> norm_num
  constructor
  · intro c hc
    constructor
    · intro hge
      rw [from_data_p_value, chisq_snd_eq_pOf, ← from_data_chisquare, hc, hnum,
        pOf_val_of_ge c _ hge]
      exact congrArg F.val (by norm_num)
    · intro hlt
      rw [from_data_p_value, chisq_snd_eq_pOf, ← from_data_chisquare, hc, hnum]
      exact pOf_val_of_lt c _ hlt
  · intro hc
    rw [from_data_p_value, chisq_snd_eq_pOf, ← from_data_chisquare, hc, hnum]
    exact pOf_nan _

/-- C5 witness: for the one-byte buffer 0x00 in bit mode, chisquare is 8 and
the p-value equals the closed erfc formula at z = sqrt (8 - 1). -/
theorem c5_pvalue_formula_witness :
    (EntStats.from_data [0] true).p_value
      = F.val (1 - 0.5 * erfc (-(Real.sqrt ((8 : ℝ) - 1)) / Real.sqrt 2)) := by
  have h := ((c5_pvalue_formula [0] true).1 8 chisq_from_data_single_zero_bit).1
    (by norm_num)
  exact h

lemma sum_map_neg {α : Type} (l : List α) (f : α → ℝ) :
    (l.map (fun x => -f x)).sum = -(l.map f).sum := by
  induction l with
  | nil => simp
  | cons a t ih => simp [ih]; ring

/-- The entropy pipeline on a positive symbol total is the real entropy sum
over the symbols of nonzero count. -/
lemma entropy_pipeline_val (n : ℕ) (cnt : ℕ → ℕ) (T : ℝ) (hT : 0 < T) :
    fsumF ((((List.range n).map
        (fun i => fdiv (F.val (cnt i)) (F.val T))).filter fIsPos).map
      (fun p => fmul (fneg p) (flog2 p)))
    = F.val ((((List.range n).filter (fun i => decide (0 < cnt i))).map
        (fun i => -((cnt i : ℝ) / T) * Real.logb 2 ((cnt i : ℝ) / T))).sum) := by
  have hmap : (List.range n).map (fun i => fdiv (F.val (cnt i)) (F.val T))
      = (List.range n).map (fun i => F.val ((cnt i : ℝ) / T)) :=
    List.map_congr_left (fun i _ => fdiv_val_of_ne _ _ (ne_of_gt hT))
  rw [hmap, List.filter_map, List.map_map]
  have hfil : (List.range n).filter (fIsPos ∘ (fun i => F.val ((cnt i : ℝ) / T)))
      = (List.range n).filter (fun i => decide (0 < cnt i)) := by
    apply List.filter_congr
    intro i _
    simp only [Function.comp_apply, fIsPos_val]
    apply decide_eq_decide.mpr
    constructor
    · intro hpos
      by_contra hz
      have hz0 : cnt i = 0 := by omega
      rw [hz0] at hpos
      simp at hpos
    · intro hpos
      exact div_pos (by exact_mod_cast hpos) hT
  rw [hfil]
  have hterm : ((List.range n).filter (fun i => decide (0 < cnt i))).map
      ((fun p => fmul (fneg p) (flog2 p)) ∘ (fun i => F.val ((cnt i : ℝ) / T)))
      = (((List.range n).filter (fun i => decide (0 < cnt i))).map
          (fun i => -((cnt i : ℝ) / T) * Real.logb 2 ((cnt i : ℝ) / T))).map F.val := by
    rw [List.map_map]
    apply List.map_congr_left
    intro i hi
    have hpos : 0 < cnt i := by
      have hmem := List.mem_filter.mp hi
      simpa using hmem.2
    have hp : 0 < (cnt i : ℝ) / T := div_pos (by exact_mod_cast hpos) hT
    simp only [Function.comp_apply, fneg_val, flog2_val_of_pos _ hp, fmul_val]
  rw [hterm, fsumF_map_val]

/-- Pointwise Gibbs bound: for 0 < p and 0 < n, the entropy term
-p log2 p is at most (1/n - p + p log n) / log 2. -/
lemma gibbs_pointwise (p n : ℝ) (hp : 0 < p) (hn : 0 < n) :
    -p * Real.logb 2 p ≤ (1 / n - p + p * Real.log n) / Real.log 2 := by
  have hlog2 : 0 < Real.log 2 := Real.log_pos (by norm_num)
  have hkey2 : -p * Real.log p ≤ 1 / n - p + p * Real.log n := by
    have hnp : 0 < n * p := mul_pos hn hp
    have key : Real.log (1 / (n * p)) ≤ 1 / (n * p) - 1 :=
      Real.log_le_sub_one_of_pos (by positivity)
    have hlog_inv : Real.log (1 / (n * p)) = -(Real.log n + Real.log p) := by
      rw [one_div, Real.log_inv, Real.log_mul (ne_of_gt hn) (ne_of_gt hp)]
    rw [hlog_inv] at key
    have hmul := mul_le_mul_of_nonneg_left key hp.le
    have h2 : p * (1 / (n * p) - 1) = 1 / n - p := by
      field_simp
      ring
    have h3 : p * -(Real.log n + Real.log p)
        = -p * Real.log n - p * Real.log p := by ring
    rw [h2, h3] at hmul
    linarith
  rw [Real.logb]
  rw [show -p * (Real.log p / Real.log 2) = (-p * Real.log p) / Real.log 2 by ring]
  exact (div_le_div_iff_of_pos_right hlog2).mpr hkey2

/-- Gibbs bounds for the entropy sum over the positive-count symbols: it is
nonnegative and at most log2 of the alphabet size. -/
lemma entropy_sum_bounds (n : ℕ) (cnt : ℕ → ℕ) (T : ℝ) (hn : 0 < n)
    (hT : T = ((List.range n).map (fun i => (cnt i : ℝ))).sum) (hT0 : 0 < T) :
    0 ≤ (((List.range n).filter (fun i => decide (0 < cnt i))).map
        (fun i => -((cnt i : ℝ) / T) * Real.logb 2 ((cnt i : ℝ) / T))).sum ∧
    (((List.range n).filter (fun i => decide (0 < cnt i))).map
        (fun i => -((cnt i : ℝ) / T) * Real.logb 2 ((cnt i : ℝ) / T))).sum
      ≤ Real.logb 2 (n : ℝ) := by
  set S := (List.range n).filter (fun i => decide (0 < cnt i)) with hS
  have hnR : (0 : ℝ) < (n : ℝ) := by exact_mod_cast hn
  have hmemS : ∀ i ∈ S, 0 < cnt i := by
    intro i hi
    have hmem := List.mem_filter.mp hi
    simpa using hmem.2
  have hrangeS : ∀ i ∈ S, i ∈ List.range n := fun i hi => (List.mem_filter.mp hi).1
  have hcle : ∀ i ∈ S, (cnt i : ℝ) ≤ T := by
    intro i hi
    rw [hT]
    apply List.single_le_sum
    · intro x hx
      rcases List.mem_map.mp hx with ⟨j, _, rfl⟩
      exact Nat.cast_nonneg _
    · exact List.mem_map_of_mem _ (hrangeS i hi)
  have hlower : 0 ≤ (S.map
      (fun i => -((cnt i : ℝ) / T) * Real.logb 2 ((cnt i : ℝ) / T))).sum := by
    apply List.sum_nonneg
    intro x hx
    rcases List.mem_map.mp hx with ⟨i, hi, rfl⟩
    have hp : 0 < (cnt i : ℝ) / T := div_pos (by exact_mod_cast hmemS i hi) hT0
    have hp1 : (cnt i : ℝ) / T ≤ 1 := (div_le_one hT0).mpr (hcle i hi)
    have hlog : Real.logb 2 ((cnt i : ℝ) / T) ≤ 0 :=
      Real.logb_nonpos (by norm_num) hp.le hp1
    nlinarith
  refine ⟨hlower, ?_⟩
  have hsum_counts : (S.map (fun i => (cnt i : ℝ))).sum = T := by
    rw [hT, hS]
    apply sum_filter_of_vanish
    intro i _ hni
    have hz : cnt i = 0 := by
      by_contra hzz
      exact hni (by simpa using Nat.pos_of_ne_zero hzz)
    rw [hz]
    norm_num
  have hsum_p : (S.map (fun i => (cnt i : ℝ) / T)).sum = 1 := by
    rw [sum_map_div, hsum_counts, div_self (ne_of_gt hT0)]
  have hcard : ((S.length : ℕ) : ℝ) ≤ (n : ℝ) := by
    have hle := List.length_filter_le (fun i => decide (0 < cnt i)) (List.range n)
    have h2 : S.length ≤ n := by simpa using hle
    exact_mod_cast h2
  have hpoint : ∀ i ∈ S, -((cnt i : ℝ) / T) * Real.logb 2 ((cnt i : ℝ) / T)
      ≤ (1 / (n : ℝ) - (cnt i : ℝ) / T + ((cnt i : ℝ) / T) * Real.log (n : ℝ))
          / Real.log 2 := by
    intro i hi
    exact gibbs_pointwise _ _ (div_pos (by exact_mod_cast hmemS i hi) hT0) hnR
  have hle1 : (S.map
      (fun i => -((cnt i : ℝ) / T) * Real.logb 2 ((cnt i : ℝ) / T))).sum
      ≤ (S.map (fun i =>
          (1 / (n : ℝ) - (cnt i : ℝ) / T + ((cnt i : ℝ) / T) * Real.log (n : ℝ))
            / Real.log 2)).sum :=
    List.sum_le_sum hpoint
  have hrhs : (S.map (fun i =>
      (1 / (n : ℝ) - (cnt i : ℝ) / T + ((cnt i : ℝ) / T) * Real.log (n : ℝ))
        / Real.log 2)).sum
      = (((S.length : ℕ) : ℝ) / (n : ℝ) - 1 + Real.log (n : ℝ)) / Real.log 2 := by
    rw [sum_map_div]
    congr 1
    have e1 : (S.map (fun i =>
        1 / (n : ℝ) - (cnt i : ℝ) / T + ((cnt i : ℝ) / T) * Real.log (n : ℝ))).sum
        = (S.map (fun i => 1 / (n : ℝ) - (cnt i : ℝ) / T)).sum
          + (S.map (fun i => ((cnt i : ℝ) / T) * Real.log (n : ℝ))).sum :=
      sum_map_add S _ _
    rw [e1]
    have e2 : (S.map (fun i => 1 / (n : ℝ) - (cnt i : ℝ) / T)).sum
        = (S.map (fun i => 1 / (n : ℝ))).sum
          - (S.map (fun i => (cnt i : ℝ) / T)).sum := by
      have hcongr : (S.map (fun i => 1 / (n : ℝ) - (cnt i : ℝ) / T))
          = (S.map (fun i => 1 / (n : ℝ) + -((cnt i : ℝ) / T))) := by
        apply List.map_congr_left
        intro i _
        ring
      rw [hcongr, sum_map_add S _ _, sum_map_neg]
      ring
    rw [e2, List.sum_map_mul_right, hsum_p]
    have e3 : (S.map (fun i => 1 / (n : ℝ))).sum
        = ((S.length : ℕ) : ℝ) * (1 / (n : ℝ)) := by
      rw [show (fun i : ℕ => 1 / (n : ℝ)) = Function.const ℕ (1 / (n : ℝ)) from rfl,
        List.map_const, List.sum_replicate, nsmul_eq_mul]
    rw [e3]
    ring
  have hfinal : (((S.length : ℕ) : ℝ) / (n : ℝ) - 1 + Real.log (n : ℝ)) / Real.log 2
      ≤ Real.logb 2 (n : ℝ) := by
    rw [Real.logb]
    have hnum : ((S.length : ℕ) : ℝ) / (n : ℝ) - 1 + Real.log (n : ℝ)
        ≤ Real.log (n : ℝ) := by
      have hq : ((S.length : ℕ) : ℝ) / (n : ℝ) ≤ 1 := (div_le_one hnR).mpr hcard
      linarith
    exact (div_le_div_iff_of_pos_right (Real.log_pos (by norm_num))).mpr hnum
  calc (S.map (fun i => -((cnt i : ℝ) / T) * Real.logb 2 ((cnt i : ℝ) / T))).sum
      ≤ _ := hle1
    _ = _ := hrhs
    _ ≤ Real.logb 2 (n : ℝ) := hfinal

/-- C6: for every non-empty buffer the entropy field is a real number in
[0, 8] in byte mode and in [0, 1] in bit mode (0 to log2 of the alphabet
size). -/
theorem c6_entropy_bounds (data : List Byte) (h : data ≠ []) :
    (∃ e : ℝ, (EntStats.from_data data false).entropy = F.val e ∧ 0 ≤ e ∧ e ≤ 8) ∧
    (∃ e : ℝ, (EntStats.from_data data true).entropy = F.val e ∧ 0 ≤ e ∧ e ≤ 1) := by
  have hlen : 0 < data.length := List.length_pos.mpr h
  constructor
  · have hT0 : (0 : ℝ) < ((data.length : ℕ) : ℝ) := by exact_mod_cast hlen
    have hTsum : ((data.length : ℕ) : ℝ)
        = ((List.range 256).map (fun i => (byteCounts data i : ℝ))).sum := by
      rw [← byteCounts_total data, Nat.cast_list_sum, List.map_map]
      rfl
    obtain ⟨hlow, hup⟩ :=
      entropy_sum_bounds 256 (byteCounts data) _ (by norm_num) hTsum hT0
    refine ⟨_, ?_, hlow, ?_⟩
    · rw [from_data_entropy]
      simp only [calculate_entropy]
      rw [if_neg Bool.false_ne_true]
      exact entropy_pipeline_val 256 (byteCounts data) _ hT0
    · have h256 : Real.logb 2 ((256 : ℕ) : ℝ) = 8 := by
        rw [show ((256 : ℕ) : ℝ) = (2 : ℝ) ^ (8 : ℕ) by norm_num, Real.logb_pow,
          Real.logb_self_eq_one (by norm_num)]
        norm_num
      rw [h256] at hup
      exact hup
  · have hT0 : (0 : ℝ) < 8.0 * ((data.length : ℕ) : ℝ) := by
      have : (0 : ℝ) < ((data.length : ℕ) : ℝ) := by exact_mod_cast hlen
      nlinarith
    have hTsum : (8.0 : ℝ) * ((data.length : ℕ) : ℝ)
        = ((List.range 2).map (fun i => (bitCounts data i : ℝ))).sum := by
      have hnat := bitCounts_total data
      rw [show List.range 2 = [0, 1] by decide]
      simp only [List.map_cons, List.map_nil, List.sum_cons, List.sum_nil]
      have := congrArg (fun k : ℕ => (k : ℝ)) hnat
      push_cast at this ⊢
      linarith
    obtain ⟨hlow, hup⟩ :=
      entropy_sum_bounds 2 (bitCounts data) _ (by norm_num) hTsum hT0
    refine ⟨_, ?_, hlow, ?_⟩
    · rw [from_data_entropy]
      simp only [calculate_entropy]
      rw [if_pos trivial]
      exact entropy_pipeline_val 2 (bitCounts data) _ hT0
    · have h2 : Real.logb 2 ((2 : ℕ) : ℝ) = 1 := by
        rw [show ((2 : ℕ) : ℝ) = (2 : ℝ) by norm_num]
        exact Real.logb_self_eq_one (by norm_num)
      rw [h2] at hup
      exact hup

/-- C6 witness: the one-byte buffer 0x00 has entropy within the bounds. -/
theorem c6_entropy_bounds_witness :
    (∃ e : ℝ, (EntStats.from_data [0] false).entropy = F.val e ∧ 0 ≤ e ∧ e ≤ 8) ∧
    (∃ e : ℝ, (EntStats.from_data [0] true).entropy = F.val e ∧ 0 ≤ e ∧ e ≤ 1) :=
  c6_entropy_bounds [0] (by simp)

end EntRs
